import Mathlib

/-!
Verification of the FastFlight core against its specification.

The development shallowly embeds the Python sources of the repository:
pure functions become Lean functions, stateful code becomes explicit
state passing, machine floats used only for ordering and exact
arithmetic are modelled by rationals, `datetime`/`timedelta` values are
modelled by integer microsecond counts (their actual resolution), and
fallible code returns `Except`.
-/

set_option maxRecDepth 4000

namespace FastFlight

/-! ## JSON values

A minimal JSON value type: the ticket wire format of the repository is
a JSON object.  Objects are association lists in serialization order
(Python dicts preserve insertion order). -/

inductive Json where
  | str (s : String)
  | num (n : Int)
  | obj (kvs : List (String × Json))

/-- Lookup of a key in a JSON object body, first match wins (Python
dicts hold each key once). -/
def jsonLookup (k : String) : List (String × Json) → Option Json
  | [] => none
  | (k2, v) :: rest => if k2 = k then some v else jsonLookup k rest

/-- Removal of every binding of a key from a JSON object body, the
effect of Python `dict.pop`. -/
def jsonErase (k : String) : List (String × Json) → List (String × Json)
  | [] => []
  | (k2, v) :: rest => if k2 = k then jsonErase k rest else (k2, v) :: jsonErase k rest

/-- Number of bindings of a key in a JSON object body. -/
def jsonCount (k : String) : List (String × Json) → Nat
  | [] => 0
  | (k2, _) :: rest => (if k2 = k then 1 else 0) + jsonCount k rest

/-- Serialization of a JSON value to text, following `json.dumps` with
its default separators; enough escaping for the strings the model
produces. -/
def Json.dumps : Json → String
  | .str s => "\"" ++ s ++ "\""
  | .num n => toString n
  | .obj kvs => "\x7b" ++ String.intercalate ", " (dumpsFields kvs) ++ "\x7d"
where
  dumpsFields : List (String × Json) → List String
    | [] => []
    | (k, v) :: rest => ("\"" ++ k ++ "\": " ++ v.dumps) :: dumpsFields rest

/-! ## The parameter model (`BaseParams`)

Modelled from the spec: the current parameter base class lives in
`fastflight/core/base.py`, which is absent from the sources (only its
tests and callers are present); per §4.2 of the spec the canonical
serialization is a JSON object holding all public fields plus a
reserved key `param_type` equal to the parameter's tag, and
deserialization parses the JSON, extracts `param_type`, looks the tag
up in the registry (failing with `UnknownParamType` when unregistered)
and validates the remaining fields against the type's schema (failing
with `InvalidParam` on violation).

The registered parameter family is represented by the concrete
parameter types exercised by the repository's tests: a sample
parameter with one string field and a time-series parameter with a
start and an end instant. -/

inductive PVal where
  | sample (someField : String)
  | ts (startT endT : Int)
deriving DecidableEq, Repr

/-- Tag of a parameter type: its fully qualified name. -/
def PVal.tag : PVal → String
  | .sample _ => "tests.test_data_service.SampleParams"
  | .ts _ _ => "fastflight.core.timeseries.TimeSeriesParams"

/-- Public fields of a parameter instance, as produced by
`model_dump`. -/
def PVal.fields : PVal → List (String × Json)
  | .sample s => [("some_field", Json.str s)]
  | .ts a b => [("start_time", Json.num a), ("end_time", Json.num b)]

/-- The tags registered with the parameter registry. -/
def registeredTags : List String :=
  ["tests.test_data_service.SampleParams", "fastflight.core.timeseries.TimeSeriesParams"]

inductive DecodeError where
  | badTicket
  | unknownParamType
  | invalidParam
deriving DecidableEq, Repr

/-- Field validation of one registered parameter type
(`model_validate` of the type looked up by tag): required fields must
be present with the right shape; extra fields are ignored, as pydantic
does by default. -/
def validateFields (tag : String) (kvs : List (String × Json)) : Except DecodeError PVal :=
  if tag = "tests.test_data_service.SampleParams" then
    match jsonLookup "some_field" kvs with
    | some (Json.str s) => Except.ok (PVal.sample s)
    | _ => Except.error DecodeError.invalidParam
  else if tag = "fastflight.core.timeseries.TimeSeriesParams" then
    match jsonLookup "start_time" kvs, jsonLookup "end_time" kvs with
    | some (Json.num a), some (Json.num b) => Except.ok (PVal.ts a b)
    | _, _ => Except.error DecodeError.invalidParam
  else Except.error DecodeError.unknownParamType

/-- Serialization body: `model_dump()` plus the injected reserved
`param_type` key set to the tag (inserted after the public fields, as
assigning a fresh dict key does). -/
def to_json_obj (p : PVal) : List (String × Json) :=
  p.fields ++ [("param_type", Json.str p.tag)]

/-- Serialization of a parameter to its wire bytes: the UTF-8 encoding
of the JSON text of `to_json_obj`. -/
def to_bytes (p : PVal) : ByteArray :=
  (Json.dumps (Json.obj (to_json_obj p))).toUTF8

/-- Deserialization from the parsed JSON value: extract and strip the
`param_type` key, look the tag up among the registered tags, then
validate the remaining fields against that type. -/
def from_json (j : Json) : Except DecodeError PVal :=
  match j with
  | Json.obj kvs =>
    match jsonLookup "param_type" kvs with
    | some (Json.str tag) =>
      if tag ∈ registeredTags then validateFields tag (jsonErase "param_type" kvs)
      else Except.error DecodeError.unknownParamType
    | _ => Except.error DecodeError.badTicket
  | _ => Except.error DecodeError.badTicket

/-- C1: for every registered parameter instance P, deserializing its
serialization returns P with all fields preserved; the serialized
object holds exactly one `param_type` key, whose value is P's tag; the
tag key is injected by `to_bytes` (after the public fields) and
stripped again before field validation; and the wire bytes are the
UTF-8 encoding of the JSON text of that object. -/
theorem param_round_trip (p : PVal) :
    p.tag ∈ registeredTags ∧
    from_json (Json.obj (to_json_obj p)) = Except.ok p ∧
    jsonCount "param_type" (to_json_obj p) = 1 ∧
    jsonLookup "param_type" (to_json_obj p) = some (Json.str p.tag) ∧
    jsonErase "param_type" (to_json_obj p) = p.fields ∧
    to_bytes p = (Json.dumps (Json.obj (to_json_obj p))).toUTF8 := by
  cases p <;>
    exact ⟨by simp [PVal.tag, registeredTags], rfl, rfl, rfl, rfl, rfl⟩

/-! ## The streaming server's ticket resolution (`server.py`)

`FastFlightServer._resolve_ticket` parses the ticket with
`BaseParams.from_bytes` and resolves the data service with
`BaseDataService.lookup`; `from_bytes` raises `KeyError` when the tag
key is missing and `ValueError` on malformed JSON, an unregistered tag
or failed validation, and `lookup` raises `ValueError` when no service
is registered for the qualified name (`data_service_base.py`).
`_resolve_ticket` catches `KeyError` and `ValueError` and raises
`flight.FlightInternalError` in both arms, and `do_get` re-raises any
escaping exception as `flight.FlightInternalError` as well. -/

inductive PyExc where
  | keyError
  | valueError
deriving DecidableEq, Repr

/-- Kinds of transport-level flight errors raised by the server. -/
inductive FlightKind where
  | internalError
  | unavailable
deriving DecidableEq, Repr

/-- Deserialization as `BaseParams.from_bytes` performs it, with its
Python exception outcomes (`json.JSONDecodeError` is a `ValueError`). -/
def from_bytes_exc (j : Json) : Except PyExc PVal :=
  match j with
  | Json.obj kvs =>
    match jsonLookup "param_type" kvs with
    | none => Except.error PyExc.keyError
    | some (Json.str tag) =>
      if tag ∈ registeredTags then
        match validateFields tag (jsonErase "param_type" kvs) with
        | Except.ok p => Except.ok p
        | Except.error _ => Except.error PyExc.valueError
      else Except.error PyExc.valueError
    | some _ => Except.error PyExc.valueError
  | _ => Except.error PyExc.valueError

/-- The tags that have a data service registered
(`BaseDataService.registry`); the time-series parameter type is
registered as a parameter but bound to no service. -/
def registeredServiceTags : List String :=
  ["tests.test_data_service.SampleParams"]

/-- Service resolution as `BaseDataService.lookup`: `ValueError` when
the qualified name has no registered service. -/
def service_lookup (tag : String) : Except PyExc String :=
  if tag ∈ registeredServiceTags then Except.ok ("service:" ++ tag)
  else Except.error PyExc.valueError

/-- Ticket resolution as `FastFlightServer._resolve_ticket`: both the
`KeyError` arm and the `ValueError` arm convert to
`flight.FlightInternalError`. -/
def resolve_ticket (ticket : Json) : Except FlightKind (PVal × String) :=
  match from_bytes_exc ticket with
  | Except.error PyExc.keyError => Except.error FlightKind.internalError
  | Except.error PyExc.valueError => Except.error FlightKind.internalError
  | Except.ok p =>
    match service_lookup p.tag with
    | Except.error _ => Except.error FlightKind.internalError
    | Except.ok s => Except.ok (p, s)

/-- C2: contrary to the claim (and to `do_get`'s own docstring, which
promises `flight.FlightUnavailableError` when the data service is not
registered), `FastFlightServer` answers a ticket whose parameter type
has no registered data service with the `Internal` kind: both for the
registered time-series parameter that has no bound service and for the
unknown tag `no.such.Type`. -/
theorem resolve_ticket_unregistered_is_internal :
    resolve_ticket (Json.obj (to_json_obj (PVal.ts 0 60000000))) =
      Except.error FlightKind.internalError ∧
    resolve_ticket (Json.obj [("param_type", Json.str "no.such.Type")]) =
      Except.error FlightKind.internalError ∧
    FlightKind.internalError ≠ FlightKind.unavailable := by
  exact ⟨rfl, rfl, by decide⟩

/-! ## Error kinds of the client

Modelled from the spec: `fastflight/exceptions.py` is absent from the
sources; §7 of the spec fixes the closed set of error kinds.  Only the
kinds the resilience layer inspects are carried; `retryExhausted`
wraps the last underlying error as its cause. -/

inductive FFError where
  | connection
  | timeout
  | serverErr
  | dataService
  | resourceExhausted
  | other
  | circuitOpen (retryAfter : ℚ)
  | retryExhausted (attemptCount : Nat) (lastError : Option FFError)

/-! ## Retry configuration (`resilience.py`)

`RetryConfig` from `fastflight/resilience.py`: delays are Python
floats used only through exact arithmetic and comparisons, modelled by
rationals; the `random.random()` sample of the jittered strategy is an
explicit argument `r` with `0 ≤ r < 1`. -/

inductive RetryStrategy where
  | fixedDelay
  | linearBackoff
  | exponentialBackoff
  | jitteredExponential
deriving DecidableEq, Repr

structure RetryConfig where
  maxAttempts : Nat
  strategy : RetryStrategy
  baseDelay : ℚ
  maxDelay : ℚ
  exponentialBase : ℚ
  jitterFactor : ℚ
  retryable : FFError → Bool

/-- The delay before the min-clamp in `RetryConfig.calculate_delay`. -/
def RetryConfig.raw_delay (cfg : RetryConfig) (attempt : Nat) (r : ℚ) : ℚ :=
  match cfg.strategy with
  | RetryStrategy.fixedDelay => cfg.baseDelay
  | RetryStrategy.linearBackoff => cfg.baseDelay * attempt
  | RetryStrategy.exponentialBackoff => cfg.baseDelay * cfg.exponentialBase ^ (attempt - 1)
  | RetryStrategy.jitteredExponential =>
    let baseDelay := cfg.baseDelay * cfg.exponentialBase ^ (attempt - 1)
    baseDelay + baseDelay * cfg.jitterFactor * (r * 2 - 1)

/-- `RetryConfig.calculate_delay`: the strategy's delay for attempt
`attempt` (starting from 1), clamped to `max_delay`. -/
def RetryConfig.calculate_delay (cfg : RetryConfig) (attempt : Nat) (r : ℚ) : ℚ :=
  min (cfg.raw_delay attempt r) cfg.maxDelay

/-- `RetryConfig.should_retry` of the legacy `resilience.py` manager:
no retry once `attempt` reaches `max_attempts`, otherwise retry iff
the exception is of a retryable kind. -/
def RetryConfig.should_retry (cfg : RetryConfig) (e : FFError) (attempt : Nat) : Bool :=
  if cfg.maxAttempts ≤ attempt then false else cfg.retryable e

/-! ## The retry loop (`resilience/core/manager.py`)

`ResilienceManager._execute_with_retry` runs attempts `1`, …,
`max_attempts`; on an exception it re-raises immediately when the
exception is not of a retryable kind, sleeps and continues while
attempts remain, and after the loop wraps the last exception in
`FastFlightRetryExhaustedError`.  The retryable-kind test
`RetryConfig.is_retryable_exception` lives in
`fastflight/resilience/config/retry.py`, absent from the sources, and
is modelled from the spec as membership of the error's kind in
`retryable_kinds`.  The outcome of each attempt is an oracle
`outcomes : Nat → Except FFError α`; the pair returned is the final
result together with the number of the last attempt executed. -/

def retryGo (cfg : RetryConfig) (outcomes : Nat → Except FFError α) :
    Nat → Nat → Except FFError α × Nat
  | 0, attempt => (Except.error (FFError.retryExhausted cfg.maxAttempts none), attempt - 1)
  | remaining + 1, attempt =>
    match outcomes attempt with
    | Except.ok a => (Except.ok a, attempt)
    | Except.error e =>
      if cfg.retryable e then
        match remaining with
        | 0 => (Except.error (FFError.retryExhausted cfg.maxAttempts (some e)), attempt)
        | r + 1 => retryGo cfg outcomes (r + 1) (attempt + 1)
      else (Except.error e, attempt)

/-- `ResilienceManager._execute_with_retry`, starting at attempt 1
with `max_attempts` attempts available. -/
def execute_with_retry (cfg : RetryConfig) (outcomes : Nat → Except FFError α) :
    Except FFError α × Nat :=
  retryGo cfg outcomes cfg.maxAttempts 1

/-- Behaviour of the retry loop over one run of `k + 1` available
attempts starting at attempt number `attempt`: the number of the last
attempt executed lies in `[attempt, attempt + k]`; every attempt
before the last failed with a retryable-kind error; and when every
available attempt fails with a retryable-kind error the loop ends by
wrapping the error of attempt `attempt + k` in `retryExhausted`. -/
theorem retryGo_ok (cfg : RetryConfig) (outcomes : Nat → Except FFError α)
    (m attempt : Nat) (a : α) (h : outcomes attempt = Except.ok a) :
    retryGo cfg outcomes (m + 1) attempt = (Except.ok a, attempt) := by
  cases m <;> simp [retryGo, h]

theorem retryGo_noretry (cfg : RetryConfig) (outcomes : Nat → Except FFError α)
    (m attempt : Nat) (e : FFError) (h : outcomes attempt = Except.error e)
    (hr : cfg.retryable e = false) :
    retryGo cfg outcomes (m + 1) attempt = (Except.error e, attempt) := by
  cases m <;> simp [retryGo, h, hr]

theorem retryGo_exhaust (cfg : RetryConfig) (outcomes : Nat → Except FFError α)
    (attempt : Nat) (e : FFError) (h : outcomes attempt = Except.error e)
    (hr : cfg.retryable e = true) :
    retryGo cfg outcomes 1 attempt =
      (Except.error (FFError.retryExhausted cfg.maxAttempts (some e)), attempt) := by
  unfold retryGo
  rw [h]
  simp only [hr]
  simp

theorem retryGo_step (cfg : RetryConfig) (outcomes : Nat → Except FFError α)
    (m attempt : Nat) (e : FFError) (h : outcomes attempt = Except.error e)
    (hr : cfg.retryable e = true) :
    retryGo cfg outcomes (m + 2) attempt = retryGo cfg outcomes (m + 1) (attempt + 1) := by
  conv_lhs => rw [retryGo]
  rw [h]
  simp only [hr]
  simp

theorem retryGo_spec (cfg : RetryConfig) (outcomes : Nat → Except FFError α) :
    ∀ k attempt,
      (attempt ≤ (retryGo cfg outcomes (k + 1) attempt).2 ∧
        (retryGo cfg outcomes (k + 1) attempt).2 ≤ attempt + k) ∧
      (∀ n, attempt ≤ n → n < (retryGo cfg outcomes (k + 1) attempt).2 →
        ∃ e, outcomes n = Except.error e ∧ cfg.retryable e = true) ∧
      ((∀ n, attempt ≤ n → n ≤ attempt + k →
          ∃ e, outcomes n = Except.error e ∧ cfg.retryable e = true) →
        ∃ e, outcomes (attempt + k) = Except.error e ∧
          (retryGo cfg outcomes (k + 1) attempt).1 =
            Except.error (FFError.retryExhausted cfg.maxAttempts (some e))) := by
  intro k
  induction k with
  | zero =>
    intro attempt
    cases houtcome : outcomes attempt with
    | ok a =>
      rw [retryGo_ok cfg outcomes 0 attempt a houtcome]
      refine ⟨⟨le_rfl, by omega⟩, fun n hn1 hn2 => absurd (lt_of_le_of_lt hn1 hn2) (by omega), ?_⟩
      intro h
      obtain ⟨e, he, _⟩ := h attempt le_rfl (by omega)
      rw [houtcome] at he
      exact absurd he (by simp)
    | error e =>
      cases hre : cfg.retryable e with
      | true =>
        rw [retryGo_exhaust cfg outcomes attempt e houtcome hre]
        exact ⟨⟨le_rfl, by omega⟩,
          fun n hn1 hn2 => absurd (lt_of_le_of_lt hn1 hn2) (by omega),
          fun _ => ⟨e, by rw [Nat.add_zero]; exact houtcome, rfl⟩⟩
      | false =>
        rw [retryGo_noretry cfg outcomes 0 attempt e houtcome hre]
        refine ⟨⟨le_rfl, by omega⟩,
          fun n hn1 hn2 => absurd (lt_of_le_of_lt hn1 hn2) (by omega), ?_⟩
        intro h
        obtain ⟨e2, he2, hr2⟩ := h attempt le_rfl (by omega)
        rw [houtcome] at he2
        cases he2
        rw [hre] at hr2
        exact absurd hr2 (by simp)
  | succ k ih =>
    intro attempt
    cases houtcome : outcomes attempt with
    | ok a =>
      rw [retryGo_ok cfg outcomes (k + 1) attempt a houtcome]
      refine ⟨⟨le_rfl, by omega⟩, fun n hn1 hn2 => absurd (lt_of_le_of_lt hn1 hn2) (by omega), ?_⟩
      intro h
      obtain ⟨e, he, _⟩ := h attempt le_rfl (by omega)
      rw [houtcome] at he
      exact absurd he (by simp)
    | error e =>
      cases hre : cfg.retryable e with
      | true =>
        have hstep := retryGo_step cfg outcomes k attempt e houtcome hre
        obtain ⟨⟨hlo, hhi⟩, hmid, hlast⟩ := ih (attempt + 1)
        rw [show k + 1 + 1 = k + 2 from rfl, hstep]
        refine ⟨⟨by omega, by omega⟩, ?_, ?_⟩
        · intro n hn1 hn2
          rcases Nat.eq_or_lt_of_le hn1 with heq | hlt
          · exact ⟨e, heq ▸ houtcome, hre⟩
          · exact hmid n hlt hn2
        · intro h
          have h2 : ∀ n, attempt + 1 ≤ n → n ≤ attempt + 1 + k →
              ∃ e2, outcomes n = Except.error e2 ∧ cfg.retryable e2 = true := by
            intro n hn1 hn2
            exact h n (by omega) (by omega)
          obtain ⟨e2, he2, hr2⟩ := hlast h2
          exact ⟨e2, by rw [show attempt + (k + 1) = attempt + 1 + k by omega]; exact he2, hr2⟩
      | false =>
        rw [retryGo_noretry cfg outcomes (k + 1) attempt e houtcome hre]
        refine ⟨⟨le_rfl, by omega⟩,
          fun n hn1 hn2 => absurd (lt_of_le_of_lt hn1 hn2) (by omega), ?_⟩
        intro h
        obtain ⟨e2, he2, hr2⟩ := h attempt le_rfl (by omega)
        rw [houtcome] at he2
        cases he2
        rw [hre] at hr2
        exact absurd hr2 (by simp)

/-- C3: under a retry configuration, a further attempt is executed
only when the previous attempt raised an error of a retryable kind and
its number is strictly below `max_attempts` (and at most
`max_attempts` attempts ever run); and when all `max_attempts`
attempts raise retryable-kind errors, the error surfaced to the caller
is `RetryExhausted` wrapping the last underlying error as its cause. -/
theorem retry_gating_and_exhaustion (cfg : RetryConfig) (outcomes : Nat → Except FFError α)
    (hmax : 1 ≤ cfg.maxAttempts) :
    (execute_with_retry cfg outcomes).2 ≤ cfg.maxAttempts ∧
    (∀ n, 1 ≤ n → n < (execute_with_retry cfg outcomes).2 →
      ∃ e, outcomes n = Except.error e ∧ cfg.retryable e = true ∧ n < cfg.maxAttempts) ∧
    ((∀ n, 1 ≤ n → n ≤ cfg.maxAttempts →
        ∃ e, outcomes n = Except.error e ∧ cfg.retryable e = true) →
      ∃ e, outcomes cfg.maxAttempts = Except.error e ∧
        (execute_with_retry cfg outcomes).1 =
          Except.error (FFError.retryExhausted cfg.maxAttempts (some e))) := by
  obtain ⟨k, hk⟩ : ∃ k, cfg.maxAttempts = k + 1 := ⟨cfg.maxAttempts - 1, by omega⟩
  have hspec := retryGo_spec cfg outcomes k 1
  rw [execute_with_retry, hk]
  obtain ⟨⟨hlo, hhi⟩, hmid, hlast⟩ := hspec
  refine ⟨by omega, ?_, ?_⟩
  · intro n hn1 hn2
    obtain ⟨e, he, hr⟩ := hmid n hn1 hn2
    exact ⟨e, he, hr, by omega⟩
  · intro h
    have h2 : ∀ n, 1 ≤ n → n ≤ 1 + k →
        ∃ e, outcomes n = Except.error e ∧ cfg.retryable e = true := by
      intro n hn1 hn2
      exact h n hn1 (by omega)
    obtain ⟨e, he, hr⟩ := hlast h2
    rw [hk] at hr
    exact ⟨e, by rw [show k + 1 = 1 + k by omega]; exact he, hr⟩

/-- Configuration for the retry witness: two attempts, connection
errors retryable. -/
def retryWitnessCfg : RetryConfig :=
  ⟨2, RetryStrategy.fixedDelay, 1, 60, 2, 1 / 10,
    fun e => match e with
      | FFError.connection => true
      | _ => false⟩

/-- Outcome oracle for the retry witness: every attempt fails with a
connection error. -/
def retryWitnessOutcomes : Nat → Except FFError Nat :=
  fun _ => Except.error FFError.connection

/-- Witness for C3 at a concrete configuration and outcome oracle. -/
theorem retry_gating_and_exhaustion_witness :
    ∃ e, retryWitnessOutcomes retryWitnessCfg.maxAttempts = Except.error e ∧
      (execute_with_retry retryWitnessCfg retryWitnessOutcomes).1 =
        Except.error (FFError.retryExhausted retryWitnessCfg.maxAttempts (some e)) :=
  (retry_gating_and_exhaustion retryWitnessCfg retryWitnessOutcomes (by decide)).2.2
    (fun _ _ _ => ⟨FFError.connection, rfl, rfl⟩)

/-- C5: for every attempt number n ≥ 1 the computed retry delay is
`base_delay` for FIXED, `base_delay * n` for LINEAR and
`base_delay * exponential_base^(n-1)` for EXPONENTIAL, each clamped
above by `max_delay`; for non-negative `base_delay` and
`exponential_base ≥ 1` the unclamped delay of those three strategies
is non-decreasing in n; and for every strategy, including
JITTERED_EXPONENTIAL with any jitter sample, the delay never exceeds
`max_delay`. -/
theorem calculate_delay_spec (cfg : RetryConfig) (n : Nat) (r : ℚ) (hn : 1 ≤ n) :
    (cfg.strategy = RetryStrategy.fixedDelay →
      cfg.calculate_delay n r = min cfg.baseDelay cfg.maxDelay) ∧
    (cfg.strategy = RetryStrategy.linearBackoff →
      cfg.calculate_delay n r = min (cfg.baseDelay * n) cfg.maxDelay) ∧
    (cfg.strategy = RetryStrategy.exponentialBackoff →
      cfg.calculate_delay n r = min (cfg.baseDelay * cfg.exponentialBase ^ (n - 1)) cfg.maxDelay) ∧
    (0 ≤ cfg.baseDelay → 1 ≤ cfg.exponentialBase →
      cfg.strategy ≠ RetryStrategy.jitteredExponential →
      cfg.raw_delay n r ≤ cfg.raw_delay (n + 1) r) ∧
    cfg.calculate_delay n r ≤ cfg.maxDelay := by
  refine ⟨?_, ?_, ?_, ?_, min_le_right _ _⟩
  · intro hs
    simp [RetryConfig.calculate_delay, RetryConfig.raw_delay, hs]
  · intro hs
    simp [RetryConfig.calculate_delay, RetryConfig.raw_delay, hs]
  · intro hs
    simp [RetryConfig.calculate_delay, RetryConfig.raw_delay, hs]
  · intro hb he hj
    cases hs : cfg.strategy with
    | fixedDelay => simp [RetryConfig.raw_delay, hs]
    | linearBackoff =>
      simp only [RetryConfig.raw_delay, hs]
      have hcast : (n : ℚ) ≤ ((n + 1 : Nat) : ℚ) := by exact_mod_cast Nat.le_succ n
      exact mul_le_mul_of_nonneg_left hcast hb
    | exponentialBackoff =>
      simp only [RetryConfig.raw_delay, hs]
      have hpow : cfg.exponentialBase ^ (n - 1) ≤ cfg.exponentialBase ^ (n + 1 - 1) :=
        pow_le_pow_right₀ he (by omega)
      exact mul_le_mul_of_nonneg_left hpow hb
    | jitteredExponential => exact absurd hs hj

/-- Configuration for the delay witness: exponential backoff with base
delay 1, maximum delay 60 and exponential base 2. -/
def delayWitnessCfg : RetryConfig :=
  ⟨3, RetryStrategy.exponentialBackoff, 1, 60, 2, 1 / 10, fun _ => false⟩

/-- Witness for C5 at a concrete configuration and attempt. -/
theorem calculate_delay_spec_witness :
    delayWitnessCfg.calculate_delay 2 0 =
      min (delayWitnessCfg.baseDelay * delayWitnessCfg.exponentialBase ^ (2 - 1))
        delayWitnessCfg.maxDelay ∧
    delayWitnessCfg.raw_delay 2 0 ≤ delayWitnessCfg.raw_delay 3 0 ∧
    delayWitnessCfg.calculate_delay 2 0 ≤ delayWitnessCfg.maxDelay := by
  have h := calculate_delay_spec delayWitnessCfg 2 0 (by decide)
  exact ⟨h.2.2.1 rfl, h.2.2.2.1 (by decide) (by decide) (by decide), h.2.2.2.2⟩

/-! ## The circuit breaker (`resilience.py`)

`CircuitBreaker` from `fastflight/resilience.py`: per-breaker state is
the FSM state, the consecutive-failure counter, the half-open success
counter and the timestamp of the last failure (`None` initially);
`time.time()` instants are modelled by rationals passed explicitly.
The configuration validity predicate carries the field constraints of
the validated configuration model in
`fastflight/resilience/config/circuit_breaker.py`
(`failure_threshold ≥ 1`, `0 < recovery_timeout ≤ 3600`,
`success_threshold ≥ 1`). -/

inductive CircuitState where
  | closed
  | opened
  | halfOpen
deriving DecidableEq, Repr

structure CircuitBreakerConfig where
  failureThreshold : Nat
  recoveryTimeout : ℚ
  successThreshold : Nat
  monitored : FFError → Bool

/-- Field constraints enforced by the pydantic configuration model. -/
def CircuitBreakerConfig.Valid (cfg : CircuitBreakerConfig) : Prop :=
  1 ≤ cfg.failureThreshold ∧ cfg.failureThreshold ≤ 1000 ∧
    0 < cfg.recoveryTimeout ∧ cfg.recoveryTimeout ≤ 3600 ∧ 1 ≤ cfg.successThreshold

structure CircuitBreaker where
  state : CircuitState
  failureCount : Nat
  successCount : Nat
  lastFailureTime : Option ℚ

/-- The freshly constructed breaker: CLOSED with zeroed counters. -/
def CircuitBreaker.init : CircuitBreaker :=
  ⟨CircuitState.closed, 0, 0, none⟩

/-- `CircuitBreaker._check_state`: an OPEN breaker whose last recorded
failure lies at least `recovery_timeout` in the past moves to
HALF_OPEN with the success counter reset (the Python guard
`if self.last_failure_time and …` also rejects the float 0.0). -/
def check_state (cfg : CircuitBreakerConfig) (now : ℚ) (cb : CircuitBreaker) : CircuitBreaker :=
  match cb.state, cb.lastFailureTime with
  | CircuitState.opened, some t =>
    if t ≠ 0 ∧ cfg.recoveryTimeout ≤ now - t then
      { cb with state := CircuitState.halfOpen, successCount := 0 }
    else cb
  | _, _ => cb

/-- Outcome of the admission decision at the head of
`CircuitBreaker.call`. -/
inductive Admission where
  | rejected (retryAfter : ℚ)
  | admitted
deriving DecidableEq, Repr

/-- The admission step of `CircuitBreaker.call`: run `_check_state`,
then reject with `FastFlightCircuitOpenError` carrying
`retry_after = recovery_timeout` when the state is still OPEN, and
admit the call otherwise. -/
def CircuitBreaker.admitCall (cfg : CircuitBreakerConfig) (now : ℚ) (cb : CircuitBreaker) :
    Admission × CircuitBreaker :=
  let cb1 := check_state cfg now cb
  if cb1.state = CircuitState.opened then (Admission.rejected cfg.recoveryTimeout, cb1)
  else (Admission.admitted, cb1)

/-- `CircuitBreaker._on_success`: in HALF_OPEN count successes and
close the breaker once `success_threshold` is reached; in CLOSED reset
the failure counter. -/
def on_success (cfg : CircuitBreakerConfig) (cb : CircuitBreaker) : CircuitBreaker :=
  match cb.state with
  | CircuitState.halfOpen =>
    if cfg.successThreshold ≤ cb.successCount + 1 then
      { cb with state := CircuitState.closed, failureCount := 0, successCount := 0 }
    else { cb with successCount := cb.successCount + 1 }
  | CircuitState.closed => { cb with failureCount := 0 }
  | CircuitState.opened => cb

/-- `CircuitBreaker._on_failure`: errors of unmonitored kinds leave
the breaker untouched; a monitored failure bumps the counter and
records the failure time, opening the breaker from CLOSED at
`failure_threshold` and reopening it from HALF_OPEN at once. -/
def on_failure (cfg : CircuitBreakerConfig) (now : ℚ) (e : FFError) (cb : CircuitBreaker) :
    CircuitBreaker :=
  if cfg.monitored e then
    let cb1 := { cb with failureCount := cb.failureCount + 1, lastFailureTime := some now }
    match cb.state with
    | CircuitState.closed =>
      if cfg.failureThreshold ≤ cb1.failureCount then { cb1 with state := CircuitState.opened }
      else cb1
    | CircuitState.halfOpen => { cb1 with state := CircuitState.opened }
    | CircuitState.opened => cb1
  else cb

/-- C4: the breaker admits a call iff its state after `_check_state`
is CLOSED or HALF_OPEN; in OPEN state the call is rejected at once
with `CircuitOpen` carrying `retry_after = recovery_timeout`, strictly
positive for every valid configuration; and when `recovery_timeout`
has elapsed since the last recorded failure, the next admission
attempt moves an OPEN breaker to HALF_OPEN and admits the call. -/
theorem circuit_admission_spec (cfg : CircuitBreakerConfig) (now t : ℚ) (cb : CircuitBreaker)
    (hvalid : cfg.Valid) :
    ((CircuitBreaker.admitCall cfg now cb).1 = Admission.admitted ↔
      ((check_state cfg now cb).state = CircuitState.closed ∨
        (check_state cfg now cb).state = CircuitState.halfOpen)) ∧
    ((check_state cfg now cb).state = CircuitState.opened →
      (CircuitBreaker.admitCall cfg now cb).1 = Admission.rejected cfg.recoveryTimeout ∧
        0 < cfg.recoveryTimeout) ∧
    (cb.state = CircuitState.opened → cb.lastFailureTime = some t → 0 < t →
      cfg.recoveryTimeout ≤ now - t →
      (check_state cfg now cb).state = CircuitState.halfOpen ∧
        (CircuitBreaker.admitCall cfg now cb).1 = Admission.admitted) := by
  refine ⟨?_, ?_, ?_⟩
  · constructor
    · intro h
      by_cases hopen : (check_state cfg now cb).state = CircuitState.opened
      · rw [CircuitBreaker.admitCall, if_pos hopen] at h
        exact absurd h (by simp)
      · cases hstate : (check_state cfg now cb).state with
        | closed => exact Or.inl rfl
        | opened => exact absurd hstate hopen
        | halfOpen => exact Or.inr rfl
    · intro h
      have hopen : (check_state cfg now cb).state ≠ CircuitState.opened := by
        rcases h with h | h <;> rw [h] <;> simp
      rw [CircuitBreaker.admitCall, if_neg hopen]
  · intro hopen
    rw [CircuitBreaker.admitCall, if_pos hopen]
    exact ⟨rfl, hvalid.2.2.1⟩
  · intro hstate hlast ht helapsed
    have hcheck : (check_state cfg now cb).state = CircuitState.halfOpen := by
      simp only [check_state, hstate, hlast]
      rw [if_pos ⟨ht.ne', helapsed⟩]
    refine ⟨hcheck, ?_⟩
    have hne : (check_state cfg now cb).state ≠ CircuitState.opened := by
      rw [hcheck]
      simp
    rw [CircuitBreaker.admitCall, if_neg hne]

/-- Valid configuration for the circuit-breaker witness. -/
def circuitWitnessCfg : CircuitBreakerConfig :=
  ⟨1, 30, 1, fun _ => true⟩

/-- OPEN breaker state for the circuit-breaker witness, with a failure
recorded at instant 10. -/
def circuitWitnessState : CircuitBreaker :=
  ⟨CircuitState.opened, 1, 0, some 10⟩

/-- Witness for C4: at instant 100, recovery has elapsed, so the next
admission attempt on the OPEN witness breaker half-opens it and admits
the call. -/
theorem circuit_admission_spec_witness :
    (check_state circuitWitnessCfg 100 circuitWitnessState).state = CircuitState.halfOpen ∧
      (CircuitBreaker.admitCall circuitWitnessCfg 100 circuitWitnessState).1 = Admission.admitted :=
  (circuit_admission_spec circuitWitnessCfg 100 10 circuitWitnessState
    (by norm_num [CircuitBreakerConfig.Valid, circuitWitnessCfg])).2.2
    rfl rfl (by norm_num) (by norm_num [circuitWitnessCfg])

/-! ## Time-series parameters (`core/timeseries.py`)

`TimeSeriesParams` carries `start_time` and `end_time` as `datetime`
values; both they and `timedelta` durations have microsecond
resolution and are modelled by integer microsecond counts.  All other
fields of a concrete subclass are copied verbatim by `model_copy`,
represented by one opaque `payload` field. -/

structure TimeSeriesParams where
  startTime : Int
  endTime : Int
  payload : String
deriving DecidableEq, Repr

/-- Python division of a `timedelta` by an integer
(`_divide_and_round` in CPython's `datetime`): floor-divide and round
the remainder half to even.  Only called with positive divisors. -/
def pyDivRound (a b : Int) : Int :=
  let q := Int.fdiv a b
  let r := a - q * b
  let r2 := 2 * r
  if r2 > b ∨ (r2 = b ∧ q % 2 = 1) then q + 1 else q

/-- The loop body of `split_by_time_windows`: starting at `cur` with
`count` windows left, emit `(cur, cur + w)` windows and force the last
window's end to `endT`. -/
def windowsFrom (endT w : Int) : Nat → Int → List (Int × Int)
  | 0, _ => []
  | 1, cur => [(cur, endT)]
  | count + 2, cur => (cur, cur + w) :: windowsFrom endT w (count + 1) (cur + w)

/-- `TimeSeriesParams.split_by_time_windows`: `ValueError` for a
non-positive partition count, the parameter itself for one partition,
otherwise windows of the rounded equal duration with the final window
ending at the parent's `end_time`. -/
def split_by_time_windows (p : TimeSeriesParams) (numPartitions : Int) :
    Except String (List TimeSeriesParams) :=
  if numPartitions ≤ 0 then Except.error "num_partitions must be positive"
  else if numPartitions = 1 then Except.ok [p]
  else
    let w := pyDivRound (p.endTime - p.startTime) numPartitions
    Except.ok ((windowsFrom p.endTime w numPartitions.toNat p.startTime).map
      (fun q => { p with startTime := q.1, endTime := q.2 }))

/-- The loop body of `split_by_window_size`: while `cur < endT` emit
`(cur, min (cur + d) endT)`; fuel bounds the iteration count and
suffices whenever `1 ≤ d`. -/
def sizeWindows (endT d : Int) : Nat → Int → List (Int × Int)
  | 0, _ => []
  | fuel + 1, cur =>
    if cur < endT then (cur, min (cur + d) endT) :: sizeWindows endT d fuel (min (cur + d) endT)
    else []

/-- `TimeSeriesParams.split_by_window_size` for a positive window
duration. -/
def split_by_window_size (p : TimeSeriesParams) (d : Int) : List TimeSeriesParams :=
  (sizeWindows p.endTime d (p.endTime - p.startTime).toNat p.startTime).map
    (fun q => { p with startTime := q.1, endTime := q.2 })

theorem windowsFrom_length (endT w : Int) :
    ∀ m cur, (windowsFrom endT w (m + 1) cur).length = m + 1 := by
  intro m
  induction m with
  | zero => intro cur; rfl
  | succ k ih => intro cur; simpa [windowsFrom] using ih (cur + w)

theorem windowsFrom_head_fst (endT w : Int) (m : Nat) (cur : Int) :
    (windowsFrom endT w (m + 1) cur).head?.map Prod.fst = some cur := by
  cases m <;> rfl

theorem windowsFrom_concat (endT w : Int) :
    ∀ m cur, ∃ l0 a, windowsFrom endT w (m + 1) cur = l0 ++ [(a, endT)] := by
  intro m
  induction m with
  | zero => intro cur; exact ⟨[], cur, rfl⟩
  | succ k ih =>
    intro cur
    obtain ⟨l0, a, ha⟩ := ih (cur + w)
    exact ⟨(cur, cur + w) :: l0, a, by rw [windowsFrom, ha]; rfl⟩

theorem windowsFrom_chain (endT w : Int) :
    ∀ m cur, List.Chain' (fun q r : Int × Int => q.2 = r.1) (windowsFrom endT w (m + 1) cur) := by
  intro m
  induction m with
  | zero => intro cur; exact List.chain'_singleton _
  | succ k ih =>
    intro cur
    rw [windowsFrom, List.chain'_cons']
    refine ⟨?_, ih (cur + w)⟩
    intro y hy
    have hh := windowsFrom_head_fst endT w k (cur + w)
    rw [hy] at hh
    simpa using hh.symm

theorem windowsFrom_fst_lb (endT w : Int) (hw : 0 ≤ w) :
    ∀ m cur, ∀ q ∈ windowsFrom endT w (m + 1) cur, cur ≤ q.1 := by
  intro m
  induction m with
  | zero =>
    intro cur q hq
    rw [windowsFrom] at hq
    simp at hq
    rw [hq]
  | succ k ih =>
    intro cur q hq
    rw [windowsFrom] at hq
    rcases List.mem_cons.mp hq with h | h
    · rw [h]
    · have := ih (cur + w) q h
      omega

theorem windowsFrom_no_inversion (endT w : Int) (hw : 0 ≤ w) :
    ∀ (m : Nat) (cur : Int), cur + (m : Int) * w ≤ endT →
      ∀ q ∈ windowsFrom endT w (m + 1) cur, q.1 ≤ q.2 := by
  intro m
  induction m with
  | zero =>
    intro cur hEnd q hq
    rw [windowsFrom] at hq
    simp at hq
    rw [hq]
    simpa using hEnd
  | succ k ih =>
    intro cur hEnd q hq
    rw [windowsFrom] at hq
    rcases List.mem_cons.mp hq with h | h
    · rw [h]; simpa using hw
    · refine ih (cur + w) ?_ q h
      push_cast at hEnd ⊢
      nlinarith [hEnd]

theorem windowsFrom_pairwise (endT w : Int) (hw : 0 ≤ w) :
    ∀ m cur,
      List.Pairwise (fun q r : Int × Int => q.2 ≤ r.1) (windowsFrom endT w (m + 1) cur) := by
  intro m
  induction m with
  | zero => intro cur; simp [windowsFrom]
  | succ k ih =>
    intro cur
    rw [windowsFrom, List.pairwise_cons]
    exact ⟨fun y hy => windowsFrom_fst_lb endT w hw k (cur + w) y hy, ih (cur + w)⟩

theorem windowsFrom_cover (endT w : Int) (hw : 0 ≤ w) :
    ∀ (m : Nat) (cur : Int), cur + (m : Int) * w ≤ endT →
      ∀ t : Int, ((∃ q ∈ windowsFrom endT w (m + 1) cur, q.1 ≤ t ∧ t < q.2) ↔
        (cur ≤ t ∧ t < endT)) := by
  intro m
  induction m with
  | zero =>
    intro cur _ t
    simp [windowsFrom]
  | succ k ih =>
    intro cur hEnd t
    have hmid : cur + w ≤ endT := by
      have hkw : 0 ≤ (k : Int) * w := mul_nonneg (by positivity) hw
      push_cast at hEnd
      nlinarith [hEnd]
    have hrest := ih (cur + w) (by push_cast at hEnd ⊢; nlinarith [hEnd]) t
    rw [windowsFrom]
    constructor
    · intro h
      rcases h with ⟨q, hq, hq1, hq2⟩
      rcases List.mem_cons.mp hq with h | h
      · rw [h] at hq1 hq2
        constructor
        · exact hq1
        · exact lt_of_lt_of_le hq2 hmid
      · have := hrest.mp ⟨q, h, hq1, hq2⟩
        omega
    · intro ⟨h1, h2⟩
      by_cases hsplit : t < cur + w
      · exact ⟨(cur, cur + w), List.mem_cons_self _ _, h1, hsplit⟩
      · obtain ⟨q, hq, hq1, hq2⟩ := hrest.mpr ⟨by omega, h2⟩
        exact ⟨q, List.mem_cons_of_mem _ hq, hq1, hq2⟩

theorem pyDivRound_nonneg (a b : Int) (ha : 0 ≤ a) (hb : 0 < b) : 0 ≤ pyDivRound a b := by
  have hq : 0 ≤ Int.fdiv a b := Int.fdiv_nonneg ha (le_of_lt hb)
  rw [pyDivRound]
  split <;> omega

theorem sizeWindows_nil_of_ge (endT d : Int) (fuel : Nat) (cur : Int) (h : endT ≤ cur) :
    sizeWindows endT d fuel cur = [] := by
  cases fuel with
  | zero => rfl
  | succ k => rw [sizeWindows, if_neg (by omega)]

theorem sizeWindows_head_fst (endT d : Int) (fuel : Nat) (cur : Int) (q : Int × Int)
    (h : (sizeWindows endT d fuel cur).head? = some q) : q.1 = cur := by
  cases fuel with
  | zero => exact absurd h (by simp [sizeWindows])
  | succ k =>
    rw [sizeWindows] at h
    split_ifs at h with hc
    · rw [List.head?_cons] at h
      injection h with h2
      rw [← h2]
    · exact absurd h (by simp)

theorem sizeWindows_chain (endT d : Int) :
    ∀ fuel cur, List.Chain' (fun q r : Int × Int => q.2 = r.1) (sizeWindows endT d fuel cur) := by
  intro fuel
  induction fuel with
  | zero => intro cur; simp [sizeWindows]
  | succ k ih =>
    intro cur
    rw [sizeWindows]
    split_ifs with hc
    · rw [List.chain'_cons']
      refine ⟨?_, ih _⟩
      intro y hy
      exact (sizeWindows_head_fst endT d k _ y hy).symm
    · simp

theorem sizeWindows_bounds (endT d : Int) (hd : 0 < d) :
    ∀ fuel cur, ∀ q ∈ sizeWindows endT d fuel cur,
      cur ≤ q.1 ∧ q.1 ≤ q.2 ∧ q.2 ≤ q.1 + d := by
  intro fuel
  induction fuel with
  | zero => intro cur q hq; simp [sizeWindows] at hq
  | succ k ih =>
    intro cur q hq
    rw [sizeWindows] at hq
    split_ifs at hq with hc
    · rcases List.mem_cons.mp hq with h | h
      · rw [h]
        exact ⟨le_rfl, le_min (by omega) (by omega), min_le_left _ _⟩
      · have hq2 := ih (min (cur + d) endT) q h
        have hle : cur ≤ min (cur + d) endT := le_min (by omega) (by omega)
        exact ⟨le_trans hle hq2.1, hq2.2⟩
    · simp at hq

theorem sizeWindows_pairwise (endT d : Int) (hd : 0 < d) :
    ∀ fuel cur,
      List.Pairwise (fun q r : Int × Int => q.2 ≤ r.1) (sizeWindows endT d fuel cur) := by
  intro fuel
  induction fuel with
  | zero => intro cur; simp [sizeWindows]
  | succ k ih =>
    intro cur
    rw [sizeWindows]
    split_ifs with hc
    · rw [List.pairwise_cons]
      refine ⟨?_, ih _⟩
      intro y hy
      exact (sizeWindows_bounds endT d hd k (min (cur + d) endT) y hy).1
    · simp

theorem sizeWindows_cover (endT d : Int) (hd : 0 < d) :
    ∀ fuel cur, (endT - cur).toNat ≤ fuel →
      ∀ t : Int, ((∃ q ∈ sizeWindows endT d fuel cur, q.1 ≤ t ∧ t < q.2) ↔
        (cur ≤ t ∧ t < endT)) := by
  intro fuel
  induction fuel with
  | zero =>
    intro cur hfuel t
    simp [sizeWindows]
    omega
  | succ k ih =>
    intro cur hfuel t
    rw [sizeWindows]
    split_ifs with hc
    · have h1 : cur < min (cur + d) endT := lt_min_iff.mpr ⟨by omega, hc⟩
      have h2 : min (cur + d) endT ≤ endT := min_le_right _ _
      have hrest := ih (min (cur + d) endT) (by omega) t
      constructor
      · rintro ⟨q, hq, hq1, hq2⟩
        rcases List.mem_cons.mp hq with h | h
        · rw [h] at hq1 hq2
          exact ⟨hq1, lt_of_lt_of_le hq2 h2⟩
        · have h3 := hrest.mp ⟨q, h, hq1, hq2⟩
          exact ⟨by omega, h3.2⟩
      · rintro ⟨ht1, ht2⟩
        by_cases hsplit : t < min (cur + d) endT
        · exact ⟨(cur, min (cur + d) endT), List.mem_cons_self _ _, ht1, hsplit⟩
        · obtain ⟨q, hq, hq1, hq2⟩ := hrest.mpr ⟨by omega, ht2⟩
          exact ⟨q, List.mem_cons_of_mem _ hq, hq1, hq2⟩
    · simp
      omega

theorem sizeWindows_concat (endT d : Int) (hd : 0 < d) :
    ∀ fuel cur, cur < endT → (endT - cur).toNat ≤ fuel →
      ∃ l0 a, sizeWindows endT d fuel cur = l0 ++ [(a, endT)] := by
  intro fuel
  induction fuel with
  | zero => intro cur hc hfuel; omega
  | succ k ih =>
    intro cur hc hfuel
    rw [sizeWindows, if_pos hc]
    by_cases h2 : min (cur + d) endT < endT
    · have h1 : cur < min (cur + d) endT := lt_min_iff.mpr ⟨by omega, hc⟩
      obtain ⟨l0, a, ha⟩ := ih (min (cur + d) endT) h2 (by omega)
      exact ⟨(cur, min (cur + d) endT) :: l0, a, by rw [ha]; rfl⟩
    · have hmeq : min (cur + d) endT = endT := by
        have h3 := min_le_right (cur + d) endT
        omega
      refine ⟨[], cur, ?_⟩
      rw [hmeq, sizeWindows_nil_of_ge endT d k endT le_rfl]
      rfl

theorem sizeWindows_head (endT d : Int) (fuel : Nat) (cur : Int) (hc : cur < endT)
    (hfuel : 1 ≤ fuel) :
    (sizeWindows endT d fuel cur).head?.map Prod.fst = some cur := by
  obtain ⟨k, rfl⟩ : ∃ k, fuel = k + 1 := ⟨fuel - 1, by omega⟩
  rw [sizeWindows, if_pos hc]
  rfl

/-- C6 (amended): for a parameter with `start_time < end_time` and
n ≥ 1 partitions, provided the rounded window size w satisfies
`(n-1)·w ≤ duration` (rounding whole microseconds can violate this
only for durations below n·(n-1)/2 microseconds),
`split_by_time_windows` returns exactly n partitions that carry the
parent's other fields verbatim, start at the parent's start, end at
the parent's end, are contiguous (each end equals the next start),
non-inverted and non-overlapping, and whose half-open intervals cover
exactly the parent interval; `split_by_window_size` with d > 0
likewise covers the parent interval with contiguous windows of
duration at most d, the last truncated at the parent's end. -/
theorem split_partition_cover (p : TimeSeriesParams) (n d : Int)
    (hlt : p.startTime < p.endTime) (hn : 1 ≤ n)
    (hround : (n - 1) * pyDivRound (p.endTime - p.startTime) n ≤ p.endTime - p.startTime)
    (hd : 0 < d) :
    (∃ parts, split_by_time_windows p n = Except.ok parts ∧
      parts.length = n.toNat ∧
      (∀ q ∈ parts, q.payload = p.payload) ∧
      parts.head?.map TimeSeriesParams.startTime = some p.startTime ∧
      parts.getLast?.map TimeSeriesParams.endTime = some p.endTime ∧
      List.Chain' (fun q r => q.endTime = r.startTime) parts ∧
      (∀ q ∈ parts, q.startTime ≤ q.endTime) ∧
      List.Pairwise (fun q r => q.endTime ≤ r.startTime) parts ∧
      (∀ t : Int, (∃ q ∈ parts, q.startTime ≤ t ∧ t < q.endTime) ↔
        (p.startTime ≤ t ∧ t < p.endTime))) ∧
    ((∀ q ∈ split_by_window_size p d, q.payload = p.payload) ∧
      (split_by_window_size p d).head?.map TimeSeriesParams.startTime = some p.startTime ∧
      (split_by_window_size p d).getLast?.map TimeSeriesParams.endTime = some p.endTime ∧
      List.Chain' (fun q r => q.endTime = r.startTime) (split_by_window_size p d) ∧
      (∀ q ∈ split_by_window_size p d,
        q.startTime ≤ q.endTime ∧ q.endTime ≤ q.startTime + d) ∧
      List.Pairwise (fun q r => q.endTime ≤ r.startTime) (split_by_window_size p d) ∧
      (∀ t : Int, (∃ q ∈ split_by_window_size p d, q.startTime ≤ t ∧ t < q.endTime) ↔
        (p.startTime ≤ t ∧ t < p.endTime))) := by
  constructor
  · by_cases h1 : n = 1
    · subst h1
      rw [split_by_time_windows, if_neg (by norm_num), if_pos rfl]
      refine ⟨[p], rfl, rfl, ?_, rfl, rfl, ?_, ?_, ?_, ?_⟩
      · intro q hq
        rw [List.mem_singleton] at hq
        rw [hq]
      · exact List.chain'_singleton _
      · intro q hq
        rw [List.mem_singleton] at hq
        rw [hq]
        exact le_of_lt hlt
      · simp
      · intro t
        simp
    · have hn0 : ¬ n ≤ 0 := by omega
      have hwnn : 0 ≤ pyDivRound (p.endTime - p.startTime) n :=
        pyDivRound_nonneg _ _ (by omega) (by omega)
      obtain ⟨m, hm⟩ : ∃ m, n.toNat = m + 1 := ⟨n.toNat - 1, by omega⟩
      have hmInt : (m : Int) = n - 1 := by omega
      have hEnd : p.startTime + (m : Int) * pyDivRound (p.endTime - p.startTime) n ≤
          p.endTime := by
        rw [hmInt]
        linarith [hround]
      rw [split_by_time_windows, if_neg hn0, if_neg h1]
      refine ⟨_, rfl, ?_, ?_, ?_, ?_, ?_, ?_, ?_, ?_⟩
      · rw [List.length_map, hm, windowsFrom_length]
      · intro q hq
        obtain ⟨q0, _, rfl⟩ := List.mem_map.mp hq
        rfl
      · rw [List.head?_map, hm, Option.map_map]
        exact windowsFrom_head_fst p.endTime _ m p.startTime
      · obtain ⟨l0, a0, hconcat⟩ := windowsFrom_concat p.endTime
          (pyDivRound (p.endTime - p.startTime) n) m p.startTime
        rw [hm, hconcat, List.map_append]
        simp
      · rw [List.chain'_map, hm]
        exact windowsFrom_chain p.endTime _ m p.startTime
      · intro q hq
        obtain ⟨q0, hq0, rfl⟩ := List.mem_map.mp hq
        rw [hm] at hq0
        exact windowsFrom_no_inversion p.endTime _ hwnn m p.startTime hEnd q0 hq0
      · rw [List.pairwise_map, hm]
        exact windowsFrom_pairwise p.endTime _ hwnn m p.startTime
      · intro t
        have hcov := windowsFrom_cover p.endTime
          (pyDivRound (p.endTime - p.startTime) n) hwnn m p.startTime hEnd t
        rw [hm]
        constructor
        · rintro ⟨q, hq, hle1, hle2⟩
          obtain ⟨x, hx, rfl⟩ := List.mem_map.mp hq
          exact hcov.mp ⟨x, hx, hle1, hle2⟩
        · intro h
          obtain ⟨x, hx, hle1, hle2⟩ := hcov.mpr h
          exact ⟨_, List.mem_map_of_mem _ hx, hle1, hle2⟩
  · have hfuel1 : 1 ≤ (p.endTime - p.startTime).toNat := by omega
    refine ⟨?_, ?_, ?_, ?_, ?_, ?_, ?_⟩
    · intro q hq
      obtain ⟨q0, _, rfl⟩ := List.mem_map.mp hq
      rfl
    · rw [split_by_window_size, List.head?_map, Option.map_map]
      exact sizeWindows_head p.endTime d _ p.startTime hlt hfuel1
    · obtain ⟨l0, a0, hconcat⟩ := sizeWindows_concat p.endTime d hd
        (p.endTime - p.startTime).toNat p.startTime hlt le_rfl
      rw [split_by_window_size, hconcat, List.map_append]
      simp
    · rw [split_by_window_size, List.chain'_map]
      exact sizeWindows_chain p.endTime d _ p.startTime
    · intro q hq
      obtain ⟨q0, hq0, rfl⟩ := List.mem_map.mp hq
      exact (sizeWindows_bounds p.endTime d hd _ p.startTime q0 hq0).2
    · rw [split_by_window_size, List.pairwise_map]
      exact sizeWindows_pairwise p.endTime d hd _ p.startTime
    · intro t
      have hcov := sizeWindows_cover p.endTime d hd (p.endTime - p.startTime).toNat
        p.startTime le_rfl t
      rw [split_by_window_size]
      constructor
      · rintro ⟨q, hq, hle1, hle2⟩
        obtain ⟨x, hx, rfl⟩ := List.mem_map.mp hq
        exact hcov.mp ⟨x, hx, hle1, hle2⟩
      · intro h
        obtain ⟨x, hx, hle1, hle2⟩ := hcov.mpr h
        exact ⟨_, List.mem_map_of_mem _ hx, hle1, hle2⟩

/-- C6 counterexample: splitting the parent interval [0µs, 15µs) into
10 windows rounds the window duration to 2µs (`timedelta` division
rounds half to even), so the ninth partition is [16µs, 18µs), outside
the parent interval, and the tenth is inverted ([18µs, 15µs)); the
instant 16µs lies in the union of the partition intervals but not in
the parent interval, refuting the claimed partition cover as stated
for every parameter with `start_time < end_time` and every n ≥ 1. -/
theorem split_time_windows_cover_fails :
    ∃ parts, split_by_time_windows ⟨0, 15, "f"⟩ 10 = Except.ok parts ∧
      (⟨16, 18, "f"⟩ : TimeSeriesParams) ∈ parts ∧
      (⟨18, 15, "f"⟩ : TimeSeriesParams) ∈ parts ∧
      ¬ (∀ t : Int, (∃ q ∈ parts, q.startTime ≤ t ∧ t < q.endTime) ↔
          ((0 : Int) ≤ t ∧ t < 15)) := by
  refine ⟨_, rfl, by decide, by decide, ?_⟩
  intro h
  have h16 := (h 16).mp ⟨⟨16, 18, "f"⟩, by decide, by decide, by decide⟩
  exact absurd h16.2 (by decide)

/-- Witness for the amended C6 at a concrete parameter: [0, 100) split
into 4 windows of 25 and windows of fixed size 30. -/
theorem split_partition_cover_witness :
    (∃ q ∈ split_by_window_size ⟨0, 100, "w"⟩ 30,
        q.startTime ≤ 55 ∧ (55 : Int) < q.endTime) ↔
      ((0 : Int) ≤ 55 ∧ (55 : Int) < 100) :=
  (split_partition_cover ⟨0, 100, "w"⟩ 4 30 (by decide) (by decide) (by decide)
    (by decide)).2.2.2.2.2.2.2 55

/-- C10: `split_by_time_windows` raises `ValueError` for every
non-positive partition count, returning no partial result, and for one
partition returns the one-element list holding the parent parameter
itself, unmodified. -/
theorem split_by_time_windows_guard (p : TimeSeriesParams) (n : Int) :
    (n ≤ 0 → split_by_time_windows p n = Except.error "num_partitions must be positive") ∧
    split_by_time_windows p 1 = Except.ok [p] := by
  constructor
  · intro h
    rw [split_by_time_windows, if_pos h]
  · rw [split_by_time_windows, if_neg (by norm_num), if_pos rfl]

/-- Witness for C10 at a concrete parameter, with n = -3 and n = 1. -/
theorem split_by_time_windows_guard_witness :
    split_by_time_windows ⟨0, 60, "g"⟩ (-3) =
      Except.error "num_partitions must be positive" ∧
    split_by_time_windows ⟨0, 60, "g"⟩ 1 = Except.ok [⟨0, 60, "g"⟩] :=
  ⟨(split_by_time_windows_guard ⟨0, 60, "g"⟩ (-3)).1 (by norm_num),
    (split_by_time_windows_guard ⟨0, 60, "g"⟩ 1).2⟩

/-! ## Distributed ordered merge (`core/distributed.py`)

`DistributedTimeSeriesService._stream_results` with `ordered = true`
keeps a buffer `results : index → batches`, records each completed
partition as it arrives and, after each arrival, emits the batches of
consecutive completed partitions starting from `next_expected_idx`.
The arrival order of completed partitions is an arbitrary permutation
supplied explicitly as `arrivals`; the buffer is a function from
partition index to the optional recorded batch list.
`_process_single_threaded_sync` iterates partitions sequentially and
yields every batch of each partition in order. -/

section Distributed

variable {β : Type} {π : Type}

/-- Recording `results[idx] = batches`. -/
def bufInsert (buf : Nat → Option (List β)) (i : Nat) (bs : List β) :
    Nat → Option (List β) :=
  fun j => if j = i then some bs else buf j

/-- Removing `results.pop(idx)`. -/
def bufErase (buf : Nat → Option (List β)) (i : Nat) : Nat → Option (List β) :=
  fun j => if j = i then none else buf j

/-- The inner `while next_expected_idx in results` loop: emit and pop
the batches of consecutive recorded partitions; `fuel` bounds the
iteration count and is kept above the number of recorded entries. -/
def flushAux : Nat → (Nat → Option (List β)) → Nat → List β × (Nat → Option (List β)) × Nat
  | 0, buf, next => ([], buf, next)
  | fuel + 1, buf, next =>
    match buf next with
    | none => ([], buf, next)
    | some bs =>
      let r := flushAux fuel (bufErase buf next) (next + 1)
      (bs ++ r.1, r.2.1, r.2.2)

/-- The outer loop of `_stream_results` with `ordered = true`: record
each arrival in order, then flush consecutive completed partitions. -/
def mergeLoop (fuel : Nat) : List (Nat × List β) → (Nat → Option (List β)) → Nat → List β
  | [], _, _ => []
  | (i, bs) :: rest, buf, next =>
    let f := flushAux fuel (bufInsert buf i bs) next
    f.1 ++ mergeLoop fuel rest f.2.1 f.2.2

/-- `_stream_results(futures, …, ordered = true)` over `n` partitions
whose completions arrive in the order given by `arrivals`. -/
def stream_results_ordered (n : Nat) (arrivals : List (Nat × List β)) : List β :=
  mergeLoop (n + 1) arrivals (fun _ => none) 0

/-- `_process_single_threaded_sync`: iterate partitions sequentially,
yielding every batch the service produces for each partition. -/
def process_single_threaded (partitions : List π) (svc : π → List β) : List β :=
  (partitions.map (fun p => svc p)).flatten

theorem flushAux_spec :
    ∀ (fuel : Nat) (buf : Nat → Option (List β)) (next : Nat),
      (∀ j, (buf j).isSome → j < next + fuel) →
      next ≤ (flushAux fuel buf next).2.2 ∧
      (∀ j, next ≤ j → j < (flushAux fuel buf next).2.2 → (buf j).isSome) ∧
      (flushAux fuel buf next).1 =
        ((List.range' next ((flushAux fuel buf next).2.2 - next)).map
          (fun j => (buf j).getD [])).flatten ∧
      (flushAux fuel buf next).2.1 (flushAux fuel buf next).2.2 = none ∧
      (∀ j, (flushAux fuel buf next).2.1 j =
        if next ≤ j ∧ j < (flushAux fuel buf next).2.2 then none else buf j) := by
  intro fuel
  induction fuel with
  | zero =>
    intro buf next hfuel
    have h0 : flushAux 0 buf next = (([] : List β), buf, next) := rfl
    refine ⟨le_rfl, ?_, ?_, ?_, ?_⟩ <;> simp only [h0]
    · intro j h1 h2
      omega
    · simp
    · cases hbn : buf next with
      | none => rfl
      | some bs =>
        have h2 := hfuel next (by rw [hbn]; rfl)
        omega
    · intro j
      rw [if_neg (by omega)]
  | succ fuel ih =>
    intro buf next hfuel
    cases hbn : buf next with
    | none =>
      have h0 : flushAux (fuel + 1) buf next = (([] : List β), buf, next) := by
        rw [flushAux, hbn]
      refine ⟨?_, ?_, ?_, ?_, ?_⟩ <;> simp only [h0]
      · exact le_rfl
      · intro j h1 h2
        omega
      · simp
      · exact hbn
      · intro j
        rw [if_neg (by omega)]
    | some bs =>
      have hstep : flushAux (fuel + 1) buf next =
          (bs ++ (flushAux fuel (bufErase buf next) (next + 1)).1,
            (flushAux fuel (bufErase buf next) (next + 1)).2.1,
            (flushAux fuel (bufErase buf next) (next + 1)).2.2) := by
        rw [flushAux, hbn]
      have hfuel2 : ∀ j, ((bufErase buf next) j).isSome → j < (next + 1) + fuel := by
        intro j hj
        rw [bufErase] at hj
        by_cases hje : j = next
        · rw [if_pos hje] at hj
          exact absurd hj (by simp)
        · rw [if_neg hje] at hj
          have h2 := hfuel j hj
          omega
      obtain ⟨ih1, ih2, ih3, ih4, ih5⟩ := ih (bufErase buf next) (next + 1) hfuel2
      refine ⟨?_, ?_, ?_, ?_, ?_⟩ <;> simp only [hstep]
      · omega
      · intro j h1 h2
        by_cases hje : j = next
        · rw [hje, hbn]; rfl
        · have h3 := ih2 j (by omega) h2
          rw [bufErase, if_neg hje] at h3
          exact h3
      · have hr : List.range' next ((flushAux fuel (bufErase buf next) (next + 1)).2.2 - next) =
            next :: List.range' (next + 1)
              ((flushAux fuel (bufErase buf next) (next + 1)).2.2 - (next + 1)) := by
          rw [show (flushAux fuel (bufErase buf next) (next + 1)).2.2 - next =
            ((flushAux fuel (bufErase buf next) (next + 1)).2.2 - (next + 1)) + 1 by omega]
          rfl
        rw [hr]
        simp only [List.map_cons, List.flatten_cons]
        rw [hbn]
        have hmapeq : (List.range' (next + 1)
              ((flushAux fuel (bufErase buf next) (next + 1)).2.2 - (next + 1))).map
            (fun j => ((bufErase buf next) j).getD []) =
            (List.range' (next + 1)
              ((flushAux fuel (bufErase buf next) (next + 1)).2.2 - (next + 1))).map
            (fun j => (buf j).getD []) := by
          apply List.map_congr_left
          intro j hj
          have hjmem := List.mem_range'_1.mp hj
          rw [bufErase, if_neg (by omega)]
        rw [← hmapeq, ← ih3]
        rfl
      · exact ih4
      · intro j
        rw [ih5 j]
        by_cases hje : j = next
        · subst hje
          rw [if_neg (by omega), if_pos ⟨le_rfl, by omega⟩, bufErase, if_pos rfl]
        · rw [bufErase, if_neg hje]
          by_cases hcond : next + 1 ≤ j ∧ j < (flushAux fuel (bufErase buf next) (next + 1)).2.2
          · rw [if_pos hcond, if_pos (by omega)]
          · rw [if_neg hcond, if_neg (by omega)]

/-- The outer merge loop emits exactly the batches of partitions
`next`, …, `n-1` in index order, for any arrival order: the invariant
relates the buffer (completed but unemitted partitions, all of index
at least `next`), the remaining arrivals and the emitted output. -/
theorem mergeLoop_spec (batches : List (List β)) :
    ∀ (rest : List (Nat × List β)) (buf : Nat → Option (List β)) (next : Nat),
      next ≤ batches.length →
      buf next = none →
      (∀ j bsj, buf j = some bsj → next ≤ j ∧ j < batches.length ∧ bsj = batches.getD j []) →
      (∀ ib ∈ rest, next ≤ ib.1 ∧ ib.1 < batches.length ∧ ib.2 = batches.getD ib.1 [] ∧
        buf ib.1 = none) →
      (rest.map Prod.fst).Nodup →
      (∀ j, next ≤ j → j < batches.length → (buf j).isSome ∨ j ∈ rest.map Prod.fst) →
      mergeLoop (batches.length + 1) rest buf next =
        ((List.range' next (batches.length - next)).map
          (fun j => batches.getD j [])).flatten := by
  intro rest
  induction rest with
  | nil =>
    intro buf next hlen hnone hbuf hrest hnodup hcomplete
    have hend : batches.length ≤ next := by
      by_contra hc
      push_neg at hc
      rcases hcomplete next le_rfl hc with hs | hmem
      · rw [hnone] at hs
        exact absurd hs (by simp)
      · simp at hmem
    rw [show batches.length - next = 0 by omega]
    rfl
  | cons head rest2 ih =>
    obtain ⟨i, bs⟩ := head
    intro buf next hlen hnone hbuf hrest hnodup hcomplete
    obtain ⟨hi0, hi3, hi4, hi5⟩ := hrest (i, bs) (List.mem_cons_self _ _)
    have hi1 : next ≤ i := hi0
    have hi2 : i < batches.length := hi3
    have hibs : bs = batches.getD i [] := hi4
    have hbi : buf i = none := hi5
    rw [List.map_cons, List.nodup_cons] at hnodup
    have hfuel : ∀ j, ((bufInsert buf i bs) j).isSome → j < next + (batches.length + 1) := by
      intro j hj
      rw [bufInsert] at hj
      by_cases hje : j = i
      · omega
      · rw [if_neg hje] at hj
        rcases hopt : buf j with _ | v
        · rw [hopt] at hj
          exact absurd hj (by simp)
        · have h3 := hbuf j v hopt
          omega
    obtain ⟨f1, f2, f3, f4, f5⟩ :=
      flushAux_spec (batches.length + 1) (bufInsert buf i bs) next hfuel
    have hnext2 : (flushAux (batches.length + 1) (bufInsert buf i bs) next).2.2 ≤
        batches.length := by
      by_contra hc
      push_neg at hc
      have hsome := f2 batches.length (by omega) (by omega)
      rw [bufInsert] at hsome
      by_cases hje : batches.length = i
      · omega
      · rw [if_neg hje] at hsome
        rcases hopt : buf batches.length with _ | v
        · rw [hopt] at hsome
          exact absurd hsome (by simp)
        · have h3 := hbuf _ v hopt
          omega
    have hstep : mergeLoop (batches.length + 1) ((i, bs) :: rest2) buf next =
        (flushAux (batches.length + 1) (bufInsert buf i bs) next).1 ++
          mergeLoop (batches.length + 1) rest2
            (flushAux (batches.length + 1) (bufInsert buf i bs) next).2.1
            (flushAux (batches.length + 1) (bufInsert buf i bs) next).2.2 := rfl
    rw [hstep]
    have hih := ih (flushAux (batches.length + 1) (bufInsert buf i bs) next).2.1
      (flushAux (batches.length + 1) (bufInsert buf i bs) next).2.2
      hnext2 f4 ?_ ?_ hnodup.2 ?_
    · have hvals : ∀ j ∈ List.range' next
          ((flushAux (batches.length + 1) (bufInsert buf i bs) next).2.2 - next),
          ((bufInsert buf i bs) j).getD [] = batches.getD j [] := by
        intro j hj
        have hjmem := List.mem_range'_1.mp hj
        have hsome := f2 j (by omega) (by omega)
        rw [bufInsert] at hsome ⊢
        by_cases hje : j = i
        · rw [if_pos hje, Option.getD_some, hje]
          exact hibs
        · rw [if_neg hje] at hsome ⊢
          rcases hopt : buf j with _ | v
          · rw [hopt] at hsome
            exact absurd hsome (by simp)
          · have h3 := hbuf j v hopt
            rw [Option.getD_some]
            exact h3.2.2
      have hrange : List.range' next
            ((flushAux (batches.length + 1) (bufInsert buf i bs) next).2.2 - next) ++
          List.range' (flushAux (batches.length + 1) (bufInsert buf i bs) next).2.2
            (batches.length - (flushAux (batches.length + 1) (bufInsert buf i bs) next).2.2) =
          List.range' next (batches.length - next) := by
        have h := List.range'_append_1 next
          ((flushAux (batches.length + 1) (bufInsert buf i bs) next).2.2 - next)
          (batches.length - (flushAux (batches.length + 1) (bufInsert buf i bs) next).2.2)
        rw [show next + ((flushAux (batches.length + 1) (bufInsert buf i bs) next).2.2 - next) =
          (flushAux (batches.length + 1) (bufInsert buf i bs) next).2.2 by omega] at h
        rw [show (batches.length -
              (flushAux (batches.length + 1) (bufInsert buf i bs) next).2.2) +
            ((flushAux (batches.length + 1) (bufInsert buf i bs) next).2.2 - next) =
          batches.length - next by omega] at h
        exact h
      rw [f3, List.map_congr_left hvals, hih, ← List.flatten_append, ← List.map_append, hrange]
    · intro j bsj hj
      rw [f5 j] at hj
      by_cases hcond : next ≤ j ∧
          j < (flushAux (batches.length + 1) (bufInsert buf i bs) next).2.2
      · rw [if_pos hcond] at hj
        exact absurd hj (by simp)
      · rw [if_neg hcond] at hj
        rw [bufInsert] at hj
        by_cases hje : j = i
        · rw [if_pos hje] at hj
          injection hj with hj2
          refine ⟨by omega, by omega, by rw [← hj2, hje]; exact hibs⟩
        · rw [if_neg hje] at hj
          have h3 := hbuf j bsj hj
          exact ⟨by omega, h3.2.1, h3.2.2⟩
    · intro ib hib
      obtain ⟨h1, h2, h3, h4⟩ := hrest ib (List.mem_cons_of_mem _ hib)
      have hne : ib.1 ≠ i := by
        intro hc
        have hmm : ib.1 ∈ rest2.map Prod.fst := List.mem_map_of_mem Prod.fst hib
        rw [hc] at hmm
        exact hnodup.1 hmm
      have hb1 : (bufInsert buf i bs) ib.1 = none := by
        rw [bufInsert, if_neg hne, h4]
      have hge : (flushAux (batches.length + 1) (bufInsert buf i bs) next).2.2 ≤ ib.1 := by
        by_contra hc
        push_neg at hc
        have hsome := f2 ib.1 h1 hc
        rw [hb1] at hsome
        exact absurd hsome (by simp)
      refine ⟨hge, h2, h3, ?_⟩
      rw [f5 ib.1, bufInsert, if_neg hne]
      by_cases hcond : next ≤ ib.1 ∧
          ib.1 < (flushAux (batches.length + 1) (bufInsert buf i bs) next).2.2
      · rw [if_pos hcond]
      · rw [if_neg hcond]
        exact h4
    · intro j hj1 hj2
      rcases hcomplete j (by omega) hj2 with hs | hmem
      · left
        rw [f5 j, if_neg (by omega), bufInsert]
        by_cases hje : j = i
        · rw [if_pos hje]
          rfl
        · rw [if_neg hje]
          exact hs
      · rw [List.map_cons, List.mem_cons] at hmem
        rcases hmem with hji | hmem2
        · left
          rw [f5 j, if_neg (by omega), bufInsert, if_pos hji]
          rfl
        · right
          exact hmem2

theorem range'_map_getD (l : List (List β)) :
    ∀ k s, s + k = l.length →
      (List.range' s k).map (fun j => l.getD j []) = l.drop s := by
  intro k
  induction k with
  | zero =>
    intro s hs
    rw [show s = l.length by omega, List.drop_length]
    rfl
  | succ k ih =>
    intro s hs
    have hslt : s < l.length := by omega
    rw [show List.range' s (k + 1) = s :: List.range' (s + 1) k from rfl]
    rw [List.map_cons, ih (s + 1) (by omega)]
    rw [List.drop_eq_getElem_cons hslt]
    congr 1
    exact List.getD_eq_getElem l [] hslt

/-- The merged ordered stream over any arrival permutation is the
concatenation of the per-partition batch lists in index order. -/
theorem stream_results_ordered_eq_flatten (bs : List (List β))
    (arrivals : List (Nat × List β))
    (hperm : arrivals.Perm ((List.range bs.length).map (fun i => (i, bs.getD i [])))) :
    stream_results_ordered bs.length arrivals = bs.flatten := by
  have hmem : ∀ ib ∈ arrivals, ib.1 < bs.length ∧ ib.2 = bs.getD ib.1 [] := by
    intro ib hib
    have h2 := hperm.mem_iff.mp hib
    obtain ⟨j, hj, hj2⟩ := List.mem_map.mp h2
    have hjr := List.mem_range.mp hj
    rw [← hj2]
    exact ⟨hjr, rfl⟩
  have hfst : (arrivals.map Prod.fst).Perm (List.range bs.length) := by
    have h := hperm.map Prod.fst
    rw [List.map_map] at h
    have h3 : (List.range bs.length).map (Prod.fst ∘ fun i => (i, bs.getD i [])) =
        List.range bs.length := by
      rw [show (Prod.fst ∘ fun i => (i, bs.getD i [])) = id from rfl, List.map_id]
    rw [h3] at h
    exact h
  have hnodup : (arrivals.map Prod.fst).Nodup :=
    hfst.nodup_iff.mpr (List.nodup_range _)
  have hcomplete : ∀ j, j < bs.length → j ∈ arrivals.map Prod.fst := by
    intro j hj
    exact hfst.mem_iff.mpr (List.mem_range.mpr hj)
  have hmain := mergeLoop_spec bs arrivals (fun _ => none) 0 (Nat.zero_le _) rfl
    (fun j bsj h => absurd h (by simp))
    (fun ib hib => ⟨Nat.zero_le _, (hmem ib hib).1, (hmem ib hib).2, rfl⟩)
    hnodup
    (fun j _ h2 => Or.inr (hcomplete j h2))
  show mergeLoop (bs.length + 1) arrivals (fun _ => none) 0 = bs.flatten
  rw [hmain, Nat.sub_zero, range'_map_getD bs bs.length 0 (by omega), List.drop_zero]

/-- C7: with preserve_order = true, the stream produced by the
distributed dispatcher over a list of partitions — for any order in
which partitions complete — equals, batch for batch, the concatenation
of the per-partition batch sequences in partition-index order, which
is exactly what the non-partitioned single-threaded sequential run
produces; and for every i the stream splits as the batches of
partitions below i followed by those of partitions from i on, so
partition i's batches are emitted only after every batch of all lower
partitions. -/
theorem stream_results_preserve_order (partitions : List π) (svc : π → List β)
    (arrivals : List (Nat × List β))
    (hperm : arrivals.Perm
      ((List.range (partitions.map (fun p => svc p)).length).map
        (fun i => (i, (partitions.map (fun p => svc p)).getD i [])))) :
    stream_results_ordered (partitions.map (fun p => svc p)).length arrivals =
      process_single_threaded partitions svc ∧
    process_single_threaded partitions svc = (partitions.map (fun p => svc p)).flatten ∧
    (∀ i, stream_results_ordered (partitions.map (fun p => svc p)).length arrivals =
      ((partitions.map (fun p => svc p)).take i).flatten ++
        ((partitions.map (fun p => svc p)).drop i).flatten) := by
  have hmain := stream_results_ordered_eq_flatten (partitions.map (fun p => svc p))
    arrivals hperm
  refine ⟨hmain, rfl, ?_⟩
  intro i
  rw [hmain, ← List.flatten_append, List.take_append_drop]

/-- Witness for C7: two partitions completing out of order still merge
into the single-threaded sequence. -/
theorem stream_results_preserve_order_witness :
    stream_results_ordered 2 [(1, [20, 21]), (0, [10, 11])] =
      process_single_threaded [10, 20] (fun p => [p, p + 1]) :=
  (stream_results_preserve_order [10, 20] (fun p => [p, p + 1])
    [(1, [20, 21]), (0, [10, 11])] (by decide)).1

end Distributed

/-! ## Service registration

Modelled from the spec: the current registration entry point lives in
`fastflight/core/base.py`, absent from the sources (the newer
`RegistryManager` exercised by `tests/test_data_service.py` is absent
as well).  Per §4.1 of the spec, `register(param_type, service_type)`
binds a (tag, param_type, service_type) triple where the tag is
derived from the parameter type identity; it fails with
`AlreadyRegistered` when the tag is in use by a different type and
silently succeeds, leaving the registry unchanged, when the identical
pair is re-registered.  The test
`test_register_duplicate_service` exercises exactly the idempotent
re-registration.  Type identities are represented by their qualified
names. -/

structure RegEntry where
  paramType : String
  serviceType : String
deriving DecidableEq, Repr

inductive RegError where
  | alreadyRegistered
deriving DecidableEq, Repr

/-- Lookup of a tag in the registry. -/
def regLookup (tag : String) : List (String × RegEntry) → Option RegEntry
  | [] => none
  | (t, e) :: rest => if t = tag then some e else regLookup tag rest

/-- Modelled from the spec: `register(param_type, service_type)` with
the tag derived from the parameter type's qualified name. -/
def register (reg : List (String × RegEntry)) (paramType serviceType : String) :
    Except RegError (List (String × RegEntry)) :=
  match regLookup paramType reg with
  | some e =>
    if e.paramType = paramType ∧ e.serviceType = serviceType then Except.ok reg
    else Except.error RegError.alreadyRegistered
  | none => Except.ok (reg ++ [(paramType, RegEntry.mk paramType serviceType)])

/-- C8: when the tag is already bound, `register` fails with
`AlreadyRegistered` if the bound (param_type, service_type) pair
differs from the one being registered, and silently succeeds leaving
the registry unchanged when the identical pair is re-registered. -/
theorem register_idempotent_or_conflict (reg : List (String × RegEntry)) (p s : String)
    (e : RegEntry) (hlook : regLookup p reg = some e) :
    (e ≠ RegEntry.mk p s → register reg p s = Except.error RegError.alreadyRegistered) ∧
    (e = RegEntry.mk p s → register reg p s = Except.ok reg) := by
  obtain ⟨ep, es⟩ := e
  constructor
  · intro hne
    have hcond : ¬ (ep = p ∧ es = s) := by
      rintro ⟨rfl, rfl⟩
      exact hne rfl
    simp only [register, hlook]
    rw [if_neg hcond]
  · intro heq
    injection heq with h1 h2
    subst h1
    subst h2
    simp only [register, hlook]
    simp

/-- Registry for the registration witness: one bound tag. -/
def regWitness : List (String × RegEntry) :=
  [("pkg.SampleParams", RegEntry.mk "pkg.SampleParams" "pkg.SampleService")]

/-- Witness for C8: a conflicting pair fails, the identical pair
silently succeeds without change. -/
theorem register_idempotent_or_conflict_witness :
    register regWitness "pkg.SampleParams" "other.Service" =
      Except.error RegError.alreadyRegistered ∧
    register regWitness "pkg.SampleParams" "pkg.SampleService" = Except.ok regWitness :=
  ⟨(register_idempotent_or_conflict regWitness "pkg.SampleParams" "other.Service"
      (RegEntry.mk "pkg.SampleParams" "pkg.SampleService") rfl).1 (by decide),
    (register_idempotent_or_conflict regWitness "pkg.SampleParams" "pkg.SampleService"
      (RegEntry.mk "pkg.SampleParams" "pkg.SampleService") rfl).2 rfl⟩

/-! ## The client connection pool (`client.py`)

`FlightClientPool.acquire` / `acquire_async` take a client handle from
the pool's queue (failing with `FastFlightResourceExhaustionError`
when the wait times out on an empty pool), yield it to the caller's
block and — in a `finally` — put the handle back, whether the block
returned or raised.  Handles are opaque numbers; the caller's block is
an oracle `op` returning `Except`. -/

inductive ClientError where
  | resourceExhausted
  | opFailed (e : PyExc)
deriving DecidableEq, Repr

structure FlightClientPool where
  poolSize : Nat
  available : List Nat
deriving DecidableEq, Repr

/-- One pooled call through `acquire`: take the next handle, run the
caller's block, return the handle to the queue in the `finally`. -/
def acquire_run (pool : FlightClientPool) (op : Nat → Except PyExc α) :
    Except ClientError α × FlightClientPool :=
  match pool.available with
  | [] => (Except.error ClientError.resourceExhausted, pool)
  | c :: rest =>
    match op c with
    | Except.ok a => (Except.ok a, { pool with available := rest ++ [c] })
    | Except.error e => (Except.error (ClientError.opFailed e), { pool with available := rest ++ [c] })

/-- C9: every pooled acquisition that obtains a handle returns it to
the pool whether the caller's block succeeds or raises: the pool keeps
the same multiset of handles and the same count, so a full pool is
restored to its configured size; and a failing block surfaces its
error with the handle back in the pool. -/
theorem acquire_returns_client (pool : FlightClientPool) (op : Nat → Except PyExc α) :
    ((acquire_run pool op).2.available).Perm pool.available ∧
    (acquire_run pool op).2.poolSize = pool.poolSize ∧
    (acquire_run pool op).2.available.length = pool.available.length ∧
    (pool.available.length = pool.poolSize →
      (acquire_run pool op).2.available.length = pool.poolSize) ∧
    (∀ c rest, pool.available = c :: rest → ∀ e, op c = Except.error e →
      (acquire_run pool op).1 = Except.error (ClientError.opFailed e) ∧
      c ∈ (acquire_run pool op).2.available) := by
  cases hav : pool.available with
  | nil =>
    have h0 : acquire_run pool op = (Except.error ClientError.resourceExhausted, pool) := by
      simp only [acquire_run, hav]
    refine ⟨?_, ?_, ?_, ?_, ?_⟩
    · rw [h0]
      rw [hav]
    · rw [h0]
    · rw [h0]
      rw [hav]
    · intro h
      rw [h0]
      show pool.available.length = pool.poolSize
      rw [hav]
      exact h
    · intro c rest hcr
      exact absurd hcr (by simp)
  | cons c0 rest0 =>
    cases hop : op c0 with
    | ok a =>
      have h0 : acquire_run pool op =
          (Except.ok a, { pool with available := rest0 ++ [c0] }) := by
        simp only [acquire_run, hav, hop]
      refine ⟨?_, ?_, ?_, ?_, ?_⟩
      · rw [h0]
        exact List.perm_append_singleton c0 rest0
      · rw [h0]
      · rw [h0]
        simp
      · intro h
        rw [h0, ← h]
        simp
      · intro c rest hcr e hope
        injection hcr with hc hrest
        rw [← hc, hop] at hope
        exact absurd hope (by simp)
    | error e0 =>
      have h0 : acquire_run pool op =
          (Except.error (ClientError.opFailed e0), { pool with available := rest0 ++ [c0] }) := by
        simp only [acquire_run, hav, hop]
      refine ⟨?_, ?_, ?_, ?_, ?_⟩
      · rw [h0]
        exact List.perm_append_singleton c0 rest0
      · rw [h0]
      · rw [h0]
        simp
      · intro h
        rw [h0, ← h]
        simp
      · intro c rest hcr e hope
        injection hcr with hc hrest
        rw [← hc, hop] at hope
        injection hope with he
        rw [h0]
        constructor
        · show Except.error (ClientError.opFailed e0) = Except.error (ClientError.opFailed e)
          rw [he]
        · show c ∈ rest0 ++ [c0]
          rw [← hc]
          simp

/-- Pool for the acquisition witness: two handles, full. -/
def poolWitness : FlightClientPool := FlightClientPool.mk 2 [7, 8]

/-- Witness for C9: a failing block surfaces its error and the handle
is back in the pool, count restored to the configured size. -/
theorem acquire_returns_client_witness :
    (acquire_run poolWitness (fun _ => Except.error PyExc.valueError :
      Nat → Except PyExc Nat)).2.available.length = poolWitness.poolSize ∧
    (acquire_run poolWitness (fun _ => Except.error PyExc.valueError :
      Nat → Except PyExc Nat)).1 = Except.error (ClientError.opFailed PyExc.valueError) :=
  ⟨(acquire_returns_client poolWitness _).2.2.2.1 rfl,
    ((acquire_returns_client poolWitness
        (fun _ => Except.error PyExc.valueError : Nat → Except PyExc Nat)).2.2.2.2
      7 [8] rfl PyExc.valueError rfl).1⟩

end FastFlight
